import Mathlib

/-!
Verification of the attention mechanism repository against its
natural-language specification.

The repository contains two historical variants of the same soft-attention
mechanism:

* an `anydiff`-based variant holding `seqSoftmax` (with its helpers
  `maxPerSeq`, `subAndExp`, `applyScalers`), `SoftAlign.Block` and the
  `Combiner`;
* an `autofunc`-based variant holding `focusFunc`, `interfacerBlock`
  (with `ibResult.PropagateGradient`), and `skipFirstResult`.

Both variants evaluate batches of variable-length sequences in lane
lock-step, but every operation treated here acts on each lane
independently, so the embedding models lanes as plain lists and batches
as lists of lanes.  Floating-point values are modelled as real numbers.
Go panics are modelled with `Except String`.
-/

namespace Attention

/-! ### Sequence softmax (`seqSoftmax`, `maxPerSeq`, `subAndExp`, `applyScalers`)

`maxPerSeq` folds a binary elementwise max across the timesteps of each
lane, seeded with the sentinel constant `-10000`.  `subAndExp` subtracts
the lane maximum and exponentiates.  `seqSoftmax` then sums the
exponentials per lane, inverts the sum (`anydiff.Div(ones, sum)`, with no
added constant) and scales every exponential by the inverted sum
(`applyScalers`).  All four steps act lanewise, so the batch-level
function is the lanewise map of the scalar-sequence function. -/

/-- Sentinel seed used by `maxPerSeq` for the running maximum. -/
def sentinel : ℝ := -10000

/-- Running maximum of one lane's values, seeded at the sentinel.
Mirrors `maxPerSeq`, which folds `anyvec.ElemMax` across timesteps
starting from a vector filled with `-10000`. -/
def maxPerSeq (lane : List ℝ) : ℝ :=
  lane.foldl max sentinel

/-- Subtract the lane maximum and exponentiate, as in `subAndExp`. -/
noncomputable def subAndExp (lane : List ℝ) : List ℝ :=
  lane.map fun x => Real.exp (x - maxPerSeq lane)

/-- Softmax of one lane: scale each exponential by the inverted sum of
the lane's exponentials.  The inversion is `anydiff.Div(ones, sum)`:
the reciprocal of the sum itself, with nothing added to the sum. -/
noncomputable def laneSoftmax (lane : List ℝ) : List ℝ :=
  let exps := subAndExp lane
  let scaler := (exps.sum)⁻¹
  exps.map fun x => x * scaler

/-- Batch-level sequence softmax `seqSoftmax`: each lane is normalized
independently (`applyScalers` multiplies each lane by its own scaler). -/
noncomputable def seqSoftmax (batch : List (List ℝ)) : List (List ℝ) :=
  batch.map laneSoftmax

/-! ### `SoftAlign.Block` input checks (anydiff variant)

`SoftAlign.Block` receives the encoder output as an `anyseq.Seq` value.
The output of such a sequence is a list of per-timestep batches; batch
`t` records, for every lane, whether the lane is still present at
timestep `t` (a lane of length `len` is present exactly at the timesteps
`t < len`).  `Block` panics when there are no timesteps at all, when no
lane is present at the first timestep, or when some lane is absent at
the first timestep (an empty input sequence). -/

/-- Length of the longest lane, which is the number of timestep batches
in the `anyseq` representation of the encoded batch. -/
def maxLaneLen (lanes : List (List α)) : Nat :=
  lanes.foldr (fun l acc => max l.length acc) 0

/-- Presence structure of `enc.Output()`: one list of presence flags per
timestep, one flag per lane. -/
def encOutput (lanes : List (List α)) : List (List Bool) :=
  (List.range (maxLaneLen lanes)).map fun t => lanes.map fun l => decide (t < l.length)

/-- Count of present lanes in one timestep batch (`Batch.NumPresent`). -/
def numPresent (b : List Bool) : Nat :=
  b.count true

/-- Block value built by `SoftAlign.Block` once the input checks pass;
only the bound encoded batch matters for the claims. -/
structure SoftBlock (α : Type) where
  encoded : List (List α)

/-- Shallow embedding of `SoftAlign.Block`: replicate the two panic
checks, then build the block.  Panics become `Except.error`. -/
def softAlignBlock (lanes : List (List α)) : Except String (SoftBlock α) :=
  match encOutput lanes with
  | [] => Except.error "cannot have no input sequences"
  | b0 :: _ =>
    if numPresent b0 = 0 then Except.error "cannot have no input sequences"
    else if b0.length ≠ numPresent b0 then Except.error "cannot have empty input sequence"
    else Except.ok ⟨lanes⟩

/-! ### Focus function (autofunc variant)

`focusFunc.Apply` slices out the bound lane of the encoded result,
concatenates the query with every encoded vector, scores the pairs with
the attentor through a `FixedMapBatcher` (grouping the augmented vectors
into chunks of `BatchSize`, normalized from `0` to `1`), exponentiates
the energies, normalizes them by the inverted sum, and reduces the
weighted encoded vectors to the context vector.  The attentor batcher is
modelled as a function on chunks of augmented vectors; the batcher
contract (scoring each input of the chunk independently) is a hypothesis
of the batch-size invariance theorem. -/

/-- Split a list into consecutive chunks of at most `bs` elements, as
the `FixedMapBatcher` groups a sequence for batched evaluation. -/
def toChunks (bs : Nat) : List α → List (List α)
  | [] => []
  | a :: t =>
    if bs = 0 then []
    else (a :: t).take bs :: toChunks bs (t.drop (bs - 1))
termination_by l => l.length
decreasing_by
  simp only [List.length_drop, List.length_cons]
  omega

/-- Elementwise sum of a list of vectors (`seqfunc.AddAll`). -/
def addAll : List (List ℝ) → List ℝ
  | [] => []
  | [v] => v
  | v :: rest => List.zipWith (fun a b => a + b) v (addAll rest)

/-- Batch-size normalization in `focusFunc.Apply`: a configured size of
zero means no batching, which the code replaces with size one. -/
def normBatch (bs : Nat) : Nat :=
  if bs = 0 then 1 else bs

/-- Shallow state of a `focusFunc`: the (nullable) encoded result, the
configured attentor batch size, and the bound lane index. -/
structure FocusFunc where
  encoded : Option (List (List (List ℝ)))
  batchSize : Nat
  lane : Nat

/-- Energies produced by scoring every `query ++ encodedVector` pair
through the batcher in chunks of the
normalized batch size (`FixedMapBatcher.ApplySeqs`). -/
def focusEnergies (batcher : List (List ℝ) → List (List ℝ)) (bs : Nat)
    (enc : List (List ℝ)) (query : List ℝ) : List (List ℝ) :=
  ((toChunks (normBatch bs) (enc.map fun encVec => query ++ encVec)).map batcher).flatten

/-- Attention distribution of the focus function: exponentiate each
energy and scale by the elementwise-inverted sum of the exponentials. -/
noncomputable def focusProbs (batcher : List (List ℝ) → List (List ℝ)) (bs : Nat)
    (enc : List (List ℝ)) (query : List ℝ) : List (List ℝ) :=
  let exps := (focusEnergies batcher bs enc query).map (List.map Real.exp)
  let normalizer := (addAll exps).map fun x => x⁻¹
  exps.map fun e => List.zipWith (fun a b => a * b) e normalizer

/-- Context vector of the focus function: scale each encoded vector by
the first component of its probability vector (`ScaleFirst`) and sum. -/
noncomputable def focusContext (batcher : List (List ℝ) → List (List ℝ)) (bs : Nat)
    (enc : List (List ℝ)) (query : List ℝ) : List ℝ :=
  addAll ((enc.zip (focusProbs batcher bs enc query)).map fun p =>
    p.1.map fun a => a * p.2.headD 0)

/-- Shallow embedding of `focusFunc.Apply`: panic when no encoded
sequence is bound, otherwise compute the context vector from the
bound lane. -/
noncomputable def focusApply (batcher : List (List ℝ) → List (List ℝ))
    (f : FocusFunc) (query : List ℝ) : Except String (List ℝ) :=
  match f.encoded with
  | none => Except.error "no relevant encoded sequence"
  | some encSeqs => Except.ok (focusContext batcher f.batchSize (encSeqs.getD f.lane []) query)

/-! ### Skip-first adapter (`skipFirstResult`)

`newSkipFirstResult` wraps a sequence result, drops the first timestep
of every lane on the forward pass, and on the backward pass prepends a
zero gradient vector of the dropped timestep's output length before
propagating into the wrapped result. -/

/-- Abstract `seqfunc.Result`: a batch of output sequences together
with a backward operation threading a gradient accumulator of type `G`. -/
structure SeqResult (G : Type) where
  outputSeqs : List (List (List ℝ))
  propagateGradient : List (List (List ℝ)) → G → G

/-- Shallow embedding of `newSkipFirstResult` and
`skipFirstResult.PropagateGradient`. -/
def newSkipFirstResult (r : SeqResult G) : SeqResult G where
  outputSeqs := r.outputSeqs.map fun lane => lane.drop 1
  propagateGradient := fun u g =>
    r.propagateGradient
      ((u.zip r.outputSeqs).map fun p =>
        List.replicate (p.2.headD []).length (0 : ℝ) :: p.1) g

/-! ### Interfacer block (autofunc variant)

The interfacer block wraps an inner `rnn.Block` and threads one external
resource (a focus function) per lane.  Its state is either the initial
phase (only the inner state known) or the running phase (inner state,
bound resource and current query).  On the first step the batch size
must equal the configured resource count, and each lane is promoted to
the running phase with a zero query of length `ResInSize`. -/

/-- Abstract inner `rnn.Block`: a start state plus a batched step
function from states and inputs to new states and raw outputs. -/
structure RnnBlock (σ : Type) where
  startState : σ
  apply : List σ → List (List ℝ) → List σ × List (List ℝ)

/-- Per-lane state of the interfacer block (`ibInitState` / `ibState`). -/
inductive IbState (σ ρ : Type) where
  | init (inner : σ)
  | running (inner : σ) (resource : ρ) (query : List ℝ)

/-- Initial-phase test for an interfacer state. -/
def IbState.isInit : IbState σ ρ → Bool
  | .init _ => true
  | .running _ _ _ => false

/-- Running-phase test for an interfacer state. -/
def IbState.isRunning : IbState σ ρ → Bool
  | .init _ => false
  | .running _ _ _ => true

/-- Bound resource of an interfacer state, when in the running phase. -/
def IbState.res? : IbState σ ρ → Option ρ
  | .init _ => none
  | .running _ r _ => some r

/-- Shallow state of an `interfacerBlock`: the per-lane resources, the
forward evaluation of a resource on a query, the wrapped block and the
query size `ResInSize`. -/
structure InterfacerBlock (σ ρ : Type) where
  resources : List ρ
  applyRes : ρ → List ℝ → List ℝ
  block : RnnBlock σ
  resInSize : Nat

/-- First-step promotion loop of `ApplyBlock`: each initial state is
rebuilt as a running state with its lane's resource and a zero query.
A non-initial state makes the Go type assertion panic, and running out
of resources would be an out-of-range index. -/
def promoteStates (resInSize : Nat) :
    List (IbState σ ρ) → List ρ → Except String (List (IbState σ ρ))
  | [], _ => Except.ok []
  | .init inner :: xs, r :: rs =>
    match promoteStates resInSize xs rs with
    | .error e => .error e
    | .ok rest => .ok (.running inner r (List.replicate resInSize 0) :: rest)
  | .running _ _ _ :: _, _ => Except.error "interface conversion: state is not ibInitState"
  | .init _ :: _, [] => Except.error "index out of range"

/-- Extraction loop of `ApplyBlock`: every state must be in the running
phase (the Go code asserts `x.(ibState)` for each lane). -/
def runningTriples : List (IbState σ ρ) → Except String (List (σ × ρ × List ℝ))
  | [] => Except.ok []
  | .running inner r q :: xs =>
    match runningTriples xs with
    | .error e => .error e
    | .ok rest => .ok ((inner, r, q) :: rest)
  | .init _ :: _ => Except.error "interface conversion: state is not ibState"

/-- Shallow embedding of `interfacerBlock.ApplyBlock`.  The first-step
check compares the batch size with the resource count; then every lane
evaluates its resource on the pooled query, concatenates the context
with the real input, steps the inner block, and splits the raw output
into the next query (`ResInSize` prefix) and the visible output. -/
def ibApplyBlock (ib : InterfacerBlock σ ρ) (s : List (IbState σ ρ))
    (ins : List (List ℝ)) : Except String (List (IbState σ ρ) × List (List ℝ)) :=
  match s with
  | [] => Except.error "index out of range"
  | s0 :: srest =>
    let startedE : Except String (List (IbState σ ρ)) :=
      match s0 with
      | .init _ =>
        if (s0 :: srest).length = ib.resources.length then
          promoteStates ib.resInSize (s0 :: srest) ib.resources
        else Except.error "first batch size must match resource count"
      | .running _ _ _ => Except.ok (s0 :: srest)
    match startedE with
    | .error e => .error e
    | .ok started =>
      match runningTriples started with
      | .error e => .error e
      | .ok st =>
        let joined := (st.zip ins).map fun p => ib.applyRes p.1.2.1 p.1.2.2 ++ p.2
        let stepped := ib.block.apply (st.map fun t => t.1) joined
        let outStates := (stepped.2.zip (stepped.1.zip st)).map fun p =>
          IbState.running p.2.1 p.2.2.2.1 (p.1.take ib.resInSize)
        let outVecs := stepped.2.map fun v => v.drop ib.resInSize
        Except.ok (outStates, outVecs)

/-! ### Gradient accumulator cleanup (`ibResult.PropagateGradient`)

The backward pass seeds the accumulator with a zero entry for every
pooled per-step query variable, runs the wrapped result's backward
operation, then reads each pooled entry into the returned state
gradients' upstream-query fields and deletes it from the accumulator.
Variables are an abstract type with decidable equality; the accumulator
is a partial map from variables to gradient vectors. -/

/-- Gradient accumulator keyed by variable identity. -/
def Grad (V : Type) : Type := V → Option (List ℝ)

/-- Map update `g[v] = x`. -/
def gradSet [DecidableEq V] (g : Grad V) (v : V) (x : List ℝ) : Grad V :=
  fun w => if w = v then some x else g w

/-- Map deletion `delete(g, v)`. -/
def gradDel [DecidableEq V] (g : Grad V) (v : V) : Grad V :=
  fun w => if w = v then none else g w

/-- Per-lane state gradient of the interfacer block (`ibStateGrad`). -/
structure IbStateGrad (sg : Type) where
  inner : Option sg
  upstreamQuery : List ℝ

/-- Upstream vectors fed to the wrapped result: per lane, the upstream
query gradient (zero of length `ReqSize` when the state gradient is
absent) followed by the upstream output gradient (zero of the output's
length when `u` is absent). -/
def ibInnerUp (reqSize : Nat) (outVecs : List (List ℝ))
    (u : Option (List (List ℝ))) (s : List (Option (IbStateGrad sg))) : List (List ℝ) :=
  let base := s.map fun x => match x with
    | none => List.replicate reqSize (0 : ℝ)
    | some y => y.upstreamQuery
  match u with
  | some us => (base.zip us).map fun p => p.1 ++ p.2
  | none => (base.zip outVecs).map fun p => p.1 ++ List.replicate p.2.length (0 : ℝ)

/-- Inner state gradients extracted from the incoming state gradients. -/
def ibInnerStateUp (s : List (Option (IbStateGrad sg))) : List (Option sg) :=
  s.map fun x => match x with
    | none => none
    | some y => y.inner

/-- Seeding loop: a zero entry of the variable's size for every pooled
query variable. -/
def seedPool [DecidableEq V] (vsize : V → Nat) (pool : List V) (g : Grad V) : Grad V :=
  pool.foldl (fun acc v => gradSet acc v (List.replicate (vsize v) 0)) g

/-- Readout loop: for each pooled variable in order, read its entry into
an `upstreamQuery` field (a missing entry reads as the nil vector), pair
it with the corresponding downstream state gradient, and delete the
entry. -/
def readAndClear [DecidableEq V] :
    Grad V → List V → List (Option sg) → Grad V × List (IbStateGrad sg)
  | g, [], _ => (g, [])
  | g, v :: vs, ds =>
    let entry := (g v).getD []
    let rest := readAndClear (gradDel g v) vs ds.tail
    (rest.1, ⟨ds.headD none, entry⟩ :: rest.2)

/-- Shallow embedding of `ibResult.PropagateGradient`.  `innerProp` is
the wrapped `rnn.BlockResult`'s backward operation, returning the
updated accumulator and the downstream state gradients. -/
def ibPropagateGradient [DecidableEq V] (vsize : V → Nat) (reqSize : Nat)
    (queryPool : List V) (outVecs : List (List ℝ))
    (innerProp : List (List ℝ) → List (Option sg) → Grad V → Grad V × List (Option sg))
    (u : Option (List (List ℝ))) (s0 : Option (List (Option (IbStateGrad sg))))
    (g : Grad V) : Grad V × List (IbStateGrad sg) :=
  let s := s0.getD (List.replicate outVecs.length none)
  let seeded := seedPool vsize queryPool g
  let stepped := innerProp (ibInnerUp reqSize outVecs u s) (ibInnerStateUp s) seeded
  readAndClear stepped.1 queryPool stepped.2

/-! ### Concrete fixtures used to instantiate the theorems -/

/-- Concrete attentor: score an augmented vector by its sum. -/
def witAtt : List ℝ → List ℝ := fun v => [v.sum]

/-- Concrete batcher scoring every chunk member independently, as the
`RBatcher` contract requires. -/
def witBatcher : List (List ℝ) → List (List ℝ) := fun grp => grp.map witAtt

/-- Concrete focus function bound to a one-vector encoded lane. -/
def witFocus : FocusFunc := ⟨some [[[(2 : ℝ)]]], 2, 0⟩

/-- Concrete inner block: states pass through, outputs are fixed pairs. -/
def witBlock : RnnBlock Nat :=
  { startState := 0, apply := fun st _ => (st, st.map fun _ => [(0 : ℝ), 0]) }

/-- Concrete interfacer block with two resources that echo the query. -/
def witIB : InterfacerBlock Nat Nat :=
  { resources := [0, 1], applyRes := fun _ q => q, block := witBlock, resInSize := 1 }

/-- Concrete sequence result whose backward operation stores the
upstream batch it receives. -/
def witSeqRes : SeqResult (List (List (List ℝ))) :=
  { outputSeqs := [[[(1 : ℝ)], [2]]], propagateGradient := fun u _ => u }

/-- Concrete inner backward operation returning the accumulator
unchanged and two downstream state gradients. -/
def witInnerProp : List (List ℝ) → List (Option Unit) → Grad Nat → Grad Nat × List (Option Unit) :=
  fun _ _ acc => (acc, [none, none])

/-- Concrete empty gradient accumulator. -/
def witGrad : Grad Nat := fun _ => none

/-! ## Theorems -/

/-! ### Softmax lemmas -/

theorem laneSoftmax_length (lane : List ℝ) : (laneSoftmax lane).length = lane.length := by
  simp [laneSoftmax, subAndExp]

theorem subAndExp_pos (lane : List ℝ) : ∀ x ∈ subAndExp lane, 0 < x := by
  intro x hx
  simp only [subAndExp, List.mem_map] at hx
  obtain ⟨y, _, rfl⟩ := hx
  exact Real.exp_pos _

theorem subAndExp_sum_pos (lane : List ℝ) (h : lane ≠ []) :
    0 < (subAndExp lane).sum := by
  apply List.sum_pos _ (subAndExp_pos lane)
  simpa [subAndExp] using h

theorem list_sum_map_mul_const (l : List ℝ) (c : ℝ) :
    (l.map fun x => x * c).sum = l.sum * c := by
  induction l with
  | nil => simp
  | cons a t ih => simp [ih, add_mul]

theorem laneSoftmax_sum (lane : List ℝ) (h : lane ≠ []) :
    (laneSoftmax lane).sum = 1 := by
  have hpos := subAndExp_sum_pos lane h
  simp only [laneSoftmax, list_sum_map_mul_const]
  exact mul_inv_cancel₀ (ne_of_gt hpos)

theorem foldl_max_of_le (l : List ℝ) (a : ℝ) (h : ∀ x ∈ l, x ≤ a) :
    l.foldl max a = a := by
  induction l generalizing a with
  | nil => rfl
  | cons x t ih =>
    have hxa : x ≤ a := h x (by simp)
    simp only [List.foldl_cons, max_eq_left hxa]
    exact ih a fun y hy => h y (by simp [hy])

theorem laneSoftmax_nonneg (lane : List ℝ) (h : lane ≠ []) :
    ∀ x ∈ laneSoftmax lane, 0 ≤ x := by
  intro x hx
  simp only [laneSoftmax, List.mem_map] at hx
  obtain ⟨e, he, rfl⟩ := hx
  have hepos := subAndExp_pos lane e he
  have hsum := subAndExp_sum_pos lane h
  positivity

/-- C1 (amended): for every batch whose lanes are all nonempty, the
sequence softmax returns a batch of the same shape in which every value
is non-negative and each lane's values sum to 1 within the 1e-3
absolute tolerance (in exact arithmetic the sum is exactly 1). -/
theorem seqSoftmax_shape_nonneg_sum_one (batch : List (List ℝ))
    (h : ∀ lane ∈ batch, lane ≠ []) :
    (seqSoftmax batch).map List.length = batch.map List.length ∧
    (∀ lane ∈ seqSoftmax batch, ∀ x ∈ lane, 0 ≤ x) ∧
    (∀ lane ∈ seqSoftmax batch, |lane.sum - 1| ≤ 1e-3) := by
  refine ⟨?_, ?_, ?_⟩
  · simp only [seqSoftmax, List.map_map]
    exact List.map_congr_left fun lane _ => laneSoftmax_length lane
  · intro lane hlane
    simp only [seqSoftmax, List.mem_map] at hlane
    obtain ⟨l, hl, rfl⟩ := hlane
    exact laneSoftmax_nonneg l (h l hl)
  · intro lane hlane
    simp only [seqSoftmax, List.mem_map] at hlane
    obtain ⟨l, hl, rfl⟩ := hlane
    rw [laneSoftmax_sum l (h l hl)]
    norm_num

/-- Witness for C1 at the one-lane batch `[[0]]`. -/
theorem seqSoftmax_shape_nonneg_sum_one_witness :
    (∀ lane ∈ [[(0 : ℝ)]], lane ≠ []) ∧
    ((seqSoftmax [[(0 : ℝ)]]).map List.length = [[(0 : ℝ)]].map List.length ∧
      (∀ lane ∈ seqSoftmax [[(0 : ℝ)]], ∀ x ∈ lane, 0 ≤ x) ∧
      (∀ lane ∈ seqSoftmax [[(0 : ℝ)]], |lane.sum - 1| ≤ 1e-3)) :=
  ⟨by simp, seqSoftmax_shape_nonneg_sum_one [[(0 : ℝ)]] (by simp)⟩

/-- C1 counterexample: on the batch holding one empty lane, the claim's
per-lane sum-to-1 property fails (the lane's values sum to 0), so the
claim does not hold for every batch of variable-length sequences. -/
theorem seqSoftmax_empty_lane_counterexample :
    seqSoftmax [([] : List ℝ)] = [[]] ∧
    ¬ |((seqSoftmax [([] : List ℝ)]).headD []).sum - 1| ≤ 1e-3 := by
  constructor
  · simp [seqSoftmax, laneSoftmax, subAndExp]
  · simp only [seqSoftmax, laneSoftmax, subAndExp, List.map_nil, List.map_cons,
      List.headD_cons, List.sum_nil]
    norm_num

/-- C2 (amended): in the sentinel case (every value of a nonempty lane
at or below `-10000`), the per-lane sum of exponentials is strictly
positive, so its direct reciprocal is the inverse of a positive number
and the normalized lane still sums to 1; no zero-protection constant is
involved. -/
theorem seqSoftmax_sentinel_sum_pos (lane : List ℝ) (h1 : lane ≠ [])
    (h2 : ∀ x ∈ lane, x ≤ sentinel) :
    maxPerSeq lane = sentinel ∧
    0 < (subAndExp lane).sum ∧
    (subAndExp lane).sum * ((subAndExp lane).sum)⁻¹ = 1 ∧
    (laneSoftmax lane).sum = 1 := by
  have hpos := subAndExp_sum_pos lane h1
  exact ⟨foldl_max_of_le lane sentinel h2, hpos, mul_inv_cancel₀ (ne_of_gt hpos),
    laneSoftmax_sum lane h1⟩

/-- Witness for C2 at the all-sentinel lane `[-10000, -20000]`. -/
theorem seqSoftmax_sentinel_sum_pos_witness :
    (∀ x ∈ [(-10000 : ℝ), -20000], x ≤ sentinel) ∧
    (maxPerSeq [(-10000 : ℝ), -20000] = sentinel ∧
      0 < (subAndExp [(-10000 : ℝ), -20000]).sum ∧
      (subAndExp [(-10000 : ℝ), -20000]).sum * ((subAndExp [(-10000 : ℝ), -20000]).sum)⁻¹ = 1 ∧
      (laneSoftmax [(-10000 : ℝ), -20000]).sum = 1) :=
  ⟨by norm_num [sentinel], seqSoftmax_sentinel_sum_pos [(-10000 : ℝ), -20000] (by simp)
    (by norm_num [sentinel])⟩

/-- C2 counterexample: the code inverts the bare sum of exponentials.
On the lane `[0]` the sum of exponentials is 1 and the produced output
value is exactly 1, while adding any positive zero-protection constant
to the sum before inversion would necessarily produce a different
value, so no such constant is added. -/
theorem seqSoftmax_no_protection_constant :
    seqSoftmax [[(0 : ℝ)]] = [[1]] ∧
    ∀ ε : ℝ, 0 < ε →
      ((subAndExp [(0 : ℝ)]).sum + ε)⁻¹ * (subAndExp [(0 : ℝ)]).headD 0 ≠
        ((seqSoftmax [[(0 : ℝ)]]).headD []).headD 0 := by
  have hmax : maxPerSeq [(0 : ℝ)] = 0 := by
    simp only [maxPerSeq, sentinel, List.foldl_cons, List.foldl_nil]
    rw [max_eq_right (by norm_num)]
  have hsub : subAndExp [(0 : ℝ)] = [1] := by
    simp [subAndExp, hmax, Real.exp_zero]
  have hmain : seqSoftmax [[(0 : ℝ)]] = [[1]] := by
    simp [seqSoftmax, laneSoftmax, hsub]
  refine ⟨hmain, fun ε hε => ?_⟩
  rw [hmain, hsub]
  simp only [List.sum_cons, List.sum_nil, List.headD_cons]
  intro habs
  rw [mul_one] at habs
  have h1ε : (0 : ℝ) < 1 + 0 + ε := by linarith
  have := congrArg (fun y => y * (1 + 0 + ε)) habs
  simp only [inv_mul_cancel₀ (ne_of_gt h1ε), one_mul] at this
  linarith

/-- C9: the sequence softmax yields exactly `[1]` on the single-element
lane `[1000]`, and on the lane `[1, 0]` its outputs are within `1e-3`
of the logistic values `0.7310586` and `0.2689414`. -/
theorem seqSoftmax_concrete_cases :
    seqSoftmax [[(1000 : ℝ)]] = [[1]] ∧
    |((seqSoftmax [[(1 : ℝ), 0]]).headD []).getD 0 0 - 0.7310586| ≤ 1e-3 ∧
    |((seqSoftmax [[(1 : ℝ), 0]]).headD []).getD 1 0 - 0.2689414| ≤ 1e-3 := by
  have hmax1 : maxPerSeq [(1000 : ℝ)] = 1000 := by
    simp only [maxPerSeq, sentinel, List.foldl_cons, List.foldl_nil]
    rw [max_eq_right (by norm_num)]
  have hcase1 : seqSoftmax [[(1000 : ℝ)]] = [[1]] := by
    simp [seqSoftmax, laneSoftmax, subAndExp, hmax1, Real.exp_zero]
  have hmax2 : maxPerSeq [(1 : ℝ), 0] = 1 := by
    simp only [maxPerSeq, sentinel, List.foldl_cons, List.foldl_nil]
    norm_num [max_def]
  have hsub2 : subAndExp [(1 : ℝ), 0] = [1, Real.exp (-1)] := by
    norm_num [subAndExp, hmax2, Real.exp_zero]
  have hxpos : (0 : ℝ) < Real.exp (-1) := Real.exp_pos _
  have hprod : Real.exp (-1 : ℝ) * Real.exp 1 = 1 := by
    rw [← Real.exp_add]
    norm_num
  have he1 := Real.exp_one_gt_d9
  have he2 := Real.exp_one_lt_d9
  have hxlow : (0.367 : ℝ) < Real.exp (-1) := by nlinarith
  have hxhigh : Real.exp (-1 : ℝ) < 0.368 := by nlinarith
  have hsumpos : (0 : ℝ) < 1 + Real.exp (-1) := by positivity
  have hinv : (1 + Real.exp (-1 : ℝ))⁻¹ * (1 + Real.exp (-1)) = 1 :=
    inv_mul_cancel₀ (ne_of_gt hsumpos)
  have hinvpos : (0 : ℝ) < (1 + Real.exp (-1 : ℝ))⁻¹ := by positivity
  have hlane : (seqSoftmax [[(1 : ℝ), 0]]).headD [] =
      [1 * (1 + Real.exp (-1))⁻¹, Real.exp (-1) * (1 + Real.exp (-1))⁻¹] := by
    simp [seqSoftmax, laneSoftmax, hsub2]
  refine ⟨hcase1, ?_, ?_⟩
  · rw [hlane]
    simp only [List.getD_cons_zero, one_mul]
    rw [abs_le]
    constructor <;> nlinarith
  · rw [hlane]
    simp only [List.getD_cons_succ, List.getD_cons_zero]
    rw [abs_le]
    constructor <;> nlinarith

/-! ### `SoftAlign.Block` input checks -/

theorem maxLaneLen_eq_zero (lanes : List (List α)) :
    maxLaneLen lanes = 0 ↔ ∀ l ∈ lanes, l = [] := by
  induction lanes with
  | nil => simp [maxLaneLen]
  | cons a t ih =>
    simp only [maxLaneLen, List.foldr_cons] at *
    rw [Nat.max_eq_zero_iff]
    constructor
    · rintro ⟨h1, h2⟩ l hl
      rcases List.mem_cons.mp hl with rfl | hl'
      · exact List.length_eq_zero.mp h1
      · exact ih.mp h2 l hl'
    · intro h
      refine ⟨List.length_eq_zero.mpr (h a (by simp)), ih.mpr fun l hl => h l (by simp [hl])⟩

/-- C8: building a block from an encoded batch succeeds exactly when the
batch has at least one lane and every lane has at least one present
position; an empty batch or any zero-length lane is rejected with a
hard error before any block is constructed. -/
theorem softAlignBlock_ok_iff (lanes : List (List α)) :
    (∃ blk, softAlignBlock lanes = Except.ok blk) ↔
      lanes ≠ [] ∧ ∀ l ∈ lanes, l ≠ [] := by
  cases hm : maxLaneLen lanes with
  | zero =>
    have hE : encOutput lanes = [] := by simp [encOutput, hm]
    have herr : softAlignBlock lanes = Except.error "cannot have no input sequences" := by
      simp only [softAlignBlock, hE]
    constructor
    · rintro ⟨blk, hblk⟩
      rw [herr] at hblk
      cases hblk
    · rintro ⟨hne, hall⟩
      obtain ⟨l, hl⟩ : ∃ l, l ∈ lanes := by
        cases lanes with
        | nil => exact absurd rfl hne
        | cons a t => exact ⟨a, by simp⟩
      exact absurd ((maxLaneLen_eq_zero lanes).mp hm l hl) (hall l hl)
  | succ k =>
    have hne : lanes ≠ [] := by
      intro h
      rw [h] at hm
      simp [maxLaneLen] at hm
    have hsome : ∃ l ∈ lanes, l ≠ [] := by
      by_contra hc
      push_neg at hc
      have h0 : maxLaneLen lanes = 0 :=
        (maxLaneLen_eq_zero lanes).mpr fun l hl => hc l hl
      rw [hm] at h0
      cases h0
    have hE : encOutput lanes =
        (lanes.map fun l => decide (0 < l.length)) ::
          ((List.range k).map Nat.succ).map
            (fun t => lanes.map fun l => decide (t < l.length)) := by
      simp only [encOutput, hm, List.range_succ_eq_map, List.map_cons]
    have hcount : ¬ numPresent (lanes.map fun l => decide (0 < l.length)) = 0 := by
      obtain ⟨l, hl, hlne⟩ := hsome
      simp only [numPresent, List.count_eq_zero]
      intro habs
      apply habs
      simp only [List.mem_map]
      exact ⟨l, hl, by simp [List.length_pos.mpr hlne]⟩
    by_cases hall : ∀ l ∈ lanes, l ≠ []
    · have heq : numPresent (lanes.map fun l => decide (0 < l.length)) =
          (lanes.map fun l => decide (0 < l.length)).length := by
        rw [numPresent, List.count_eq_length]
        intro b hb
        simp only [List.mem_map] at hb
        obtain ⟨l, hl, rfl⟩ := hb
        simp [List.length_pos.mpr (hall l hl)]
      have hok : softAlignBlock lanes = Except.ok ⟨lanes⟩ := by
        simp only [softAlignBlock, hE]
        rw [if_neg hcount, if_neg (by rw [heq]; exact fun hc => hc rfl)]
      constructor
      · intro _
        exact ⟨hne, hall⟩
      · intro _
        exact ⟨⟨lanes⟩, hok⟩
    · have hneq : (lanes.map fun l => decide (0 < l.length)).length ≠
          numPresent (lanes.map fun l => decide (0 < l.length)) := by
        push_neg at hall
        obtain ⟨l0, hl0, hl0e⟩ := hall
        intro habs
        have hcl : numPresent (lanes.map fun l => decide (0 < l.length)) =
            (lanes.map fun l => decide (0 < l.length)).length := habs.symm
        rw [numPresent, List.count_eq_length] at hcl
        have hfalse : (false : Bool) ∈ lanes.map fun l => decide (0 < l.length) := by
          simp only [List.mem_map]
          exact ⟨l0, hl0, by simp [hl0e]⟩
        cases hcl false hfalse
      have herr : softAlignBlock lanes = Except.error "cannot have empty input sequence" := by
        simp only [softAlignBlock, hE]
        rw [if_neg hcount, if_pos hneq]
      constructor
      · rintro ⟨blk, hblk⟩
        rw [herr] at hblk
        cases hblk
      · rintro ⟨_, hall2⟩
        exact absurd hall2 hall

/-! ### Focus function -/

theorem normBatch_pos (bs : Nat) : 0 < normBatch bs := by
  unfold normBatch
  split <;> omega

theorem toChunks_flatten (bs : Nat) (hbs : 0 < bs) (l : List α) :
    (toChunks bs l).flatten = l := by
  have H : ∀ n (l : List α), l.length ≤ n → (toChunks bs l).flatten = l := by
    intro n
    induction n with
    | zero =>
      intro l hl
      have hnil : l = [] := List.length_eq_zero.mp (Nat.le_zero.mp hl)
      subst hnil
      rw [toChunks]
      rfl
    | succ n ih =>
      intro l hl
      match l with
      | [] =>
        rw [toChunks]
        rfl
      | a :: t =>
        have ht : t.length ≤ n := by simpa using hl
        rw [toChunks]
        rw [if_neg (by omega)]
        simp only [List.flatten_cons]
        rw [ih (t.drop (bs - 1)) (by simp only [List.length_drop]; omega)]
        match bs, hbs with
        | k + 1, _ =>
          simp only [List.take_succ_cons, Nat.add_sub_cancel, List.cons_append,
            List.take_append_drop]
  exact H l.length l le_rfl

theorem fixedMapBatcher_eq_map (batcher : List (List ℝ) → List (List ℝ))
    (f : List ℝ → List ℝ) (hpt : ∀ grp, batcher grp = grp.map f)
    (bs : Nat) (l : List (List ℝ)) :
    ((toChunks (normBatch bs) l).map batcher).flatten = l.map f := by
  rw [List.map_congr_left fun c _ => hpt c]
  rw [← List.map_flatten]
  rw [toChunks_flatten (normBatch bs) (normBatch_pos bs) l]

theorem focusEnergies_batch_size_eq (batcher : List (List ℝ) → List (List ℝ))
    (f : List ℝ → List ℝ) (hpt : ∀ grp, batcher grp = grp.map f)
    (bs : Nat) (enc : List (List ℝ)) (query : List ℝ) :
    focusEnergies batcher bs enc query = (enc.map fun encVec => query ++ encVec).map f := by
  unfold focusEnergies
  exact fixedMapBatcher_eq_map batcher f hpt bs _

/-- C6: with an attentor batcher that scores each member of a chunk
independently (the `RBatcher` contract), the focus function's attention
distribution and context vector are the same for any two configured
batch sizes, including size 0 which the code normalizes to size 1;
batching never changes the result. -/
theorem focus_batch_size_invariant (batcher : List (List ℝ) → List (List ℝ))
    (f : List ℝ → List ℝ) (hpt : ∀ grp, batcher grp = grp.map f)
    (enc : List (List ℝ)) (query : List ℝ) (ff : FocusFunc) (bs1 bs2 : Nat) :
    focusProbs batcher bs1 enc query = focusProbs batcher bs2 enc query ∧
    focusApply batcher { ff with batchSize := bs1 } query =
      focusApply batcher { ff with batchSize := bs2 } query := by
  have hprobs : ∀ e, focusProbs batcher bs1 e query = focusProbs batcher bs2 e query := by
    intro e
    unfold focusProbs
    rw [focusEnergies_batch_size_eq batcher f hpt bs1,
      focusEnergies_batch_size_eq batcher f hpt bs2]
  refine ⟨hprobs enc, ?_⟩
  unfold focusApply
  cases ff.encoded with
  | none => rfl
  | some encSeqs =>
    simp only
    unfold focusContext
    rw [hprobs (encSeqs.getD ff.lane [])]

/-- Witness for C6 comparing batch size 2 with batch size 0 on a
concrete focus function. -/
theorem focus_batch_size_invariant_witness :
    (∀ grp, witBatcher grp = grp.map witAtt) ∧
    (focusProbs witBatcher 2 [[(2 : ℝ)]] [(1 : ℝ)] =
        focusProbs witBatcher 0 [[(2 : ℝ)]] [(1 : ℝ)] ∧
      focusApply witBatcher { witFocus with batchSize := 2 } [(1 : ℝ)] =
        focusApply witBatcher { witFocus with batchSize := 0 } [(1 : ℝ)]) :=
  ⟨fun _ => rfl,
    focus_batch_size_invariant witBatcher witAtt (fun _ => rfl) [[(2 : ℝ)]] [(1 : ℝ)]
      witFocus 2 0⟩

/-- C7: applying a focus function with no bound encoded sequence fails
with the contract-violation error; it never returns a vector. -/
theorem focusApply_nil_encoded_error (batcher : List (List ℝ) → List (List ℝ))
    (bs lane : Nat) (query : List ℝ) :
    focusApply batcher ⟨none, bs, lane⟩ query =
      Except.error "no relevant encoded sequence" := rfl

/-! ### Skip-first adapter -/

/-- C4: the skip-first adapter drops exactly the first timestep of every
lane of the wrapped result, and its backward pass hands the wrapped
result an upstream batch in which each lane has a zero gradient vector
of the dropped timestep's output length prepended to the caller's
upstream gradient. -/
theorem skipFirstResult_shape_grad (r : SeqResult G) (u : List (List (List ℝ))) (g : G)
    (hne : ∀ lane ∈ r.outputSeqs, lane ≠ [])
    (hu : u.length = r.outputSeqs.length) :
    (∀ i, i < r.outputSeqs.length →
      ((newSkipFirstResult r).outputSeqs.getD i []).length + 1 =
        (r.outputSeqs.getD i []).length) ∧
    ∃ newU, (newSkipFirstResult r).propagateGradient u g = r.propagateGradient newU g ∧
      newU.length = u.length ∧
      ∀ i, i < u.length →
        (newU.getD i []).headD [] =
          List.replicate ((r.outputSeqs.getD i []).headD []).length (0 : ℝ) ∧
        (newU.getD i []).tail = u.getD i [] := by
  constructor
  · intro i hi
    have hmap : (newSkipFirstResult r).outputSeqs =
        r.outputSeqs.map fun lane => lane.drop 1 := rfl
    rw [hmap, List.getD_eq_getElem?_getD, List.getElem?_map,
      List.getElem?_eq_getElem hi]
    simp only [Option.map_some', Option.getD_some, List.length_drop]
    have hlane := hne r.outputSeqs[i] (List.getElem_mem hi)
    have hpos : 0 < r.outputSeqs[i].length := List.length_pos.mpr hlane
    rw [List.getD_eq_getElem?_getD, List.getElem?_eq_getElem hi]
    simp only [Option.getD_some]
    omega
  · refine ⟨(u.zip r.outputSeqs).map fun p =>
      List.replicate (p.2.headD []).length (0 : ℝ) :: p.1, ?_, ?_, ?_⟩
    · rfl
    · simp [List.length_zip, hu]
    · intro i hi
      have hi2 : i < r.outputSeqs.length := hu ▸ hi
      have hiz : i < (u.zip r.outputSeqs).length := by
        simp [List.length_zip]
        omega
      rw [List.getD_eq_getElem?_getD, List.getElem?_map,
        List.getElem?_eq_getElem hiz]
      simp only [List.getElem_zip, Option.map_some', Option.getD_some,
        List.headD_cons, List.tail_cons]
      constructor
      · rw [List.getD_eq_getElem?_getD, List.getElem?_eq_getElem hi2]
        simp
      · rw [List.getD_eq_getElem?_getD, List.getElem?_eq_getElem hi]
        simp

/-- Witness for C4 on a concrete wrapped result with one two-step lane. -/
theorem skipFirstResult_shape_grad_witness :
    (∀ lane ∈ witSeqRes.outputSeqs, lane ≠ []) ∧
    ((∀ i, i < witSeqRes.outputSeqs.length →
      ((newSkipFirstResult witSeqRes).outputSeqs.getD i []).length + 1 =
        (witSeqRes.outputSeqs.getD i []).length) ∧
    ∃ newU, (newSkipFirstResult witSeqRes).propagateGradient [[[(3 : ℝ)]]] [] =
        witSeqRes.propagateGradient newU [] ∧
      newU.length = [[[(3 : ℝ)]]].length ∧
      ∀ i, i < [[[(3 : ℝ)]]].length →
        (newU.getD i []).headD [] =
          List.replicate ((witSeqRes.outputSeqs.getD i []).headD []).length (0 : ℝ) ∧
        (newU.getD i []).tail = [[[(3 : ℝ)]]].getD i []) :=
  ⟨by simp [witSeqRes],
    skipFirstResult_shape_grad witSeqRes [[[(3 : ℝ)]]] [] (by simp [witSeqRes])
      (by simp [witSeqRes])⟩

/-! ### Interfacer block -/

theorem promoteStates_ok (k : Nat) (s : List (IbState σ ρ)) (rs : List ρ)
    (hinit : ∀ x ∈ s, x.isInit = true) (hlen : s.length = rs.length) :
    ∃ ps, promoteStates k s rs = Except.ok ps ∧ ps.length = s.length ∧
      (∀ x ∈ ps, x.isRunning = true) ∧ ps.map IbState.res? = rs.map some := by
  induction s generalizing rs with
  | nil =>
    cases rs with
    | nil => exact ⟨[], rfl, rfl, by simp, rfl⟩
    | cons r rs => simp at hlen
  | cons a t ih =>
    cases rs with
    | nil => simp at hlen
    | cons r rs =>
      obtain ⟨i0, rfl⟩ : ∃ i0, a = IbState.init i0 := by
        cases a with
        | init i0 => exact ⟨i0, rfl⟩
        | running i r q =>
          have := hinit (IbState.running i r q) (by simp)
          simp [IbState.isInit] at this
      obtain ⟨ps, hps, h1, h2, h3⟩ :=
        ih rs (fun x hx => hinit x (List.mem_cons_of_mem _ hx)) (by simpa using hlen)
      refine ⟨IbState.running i0 r (List.replicate k 0) :: ps, ?_, by simp [h1], ?_, ?_⟩
      · simp only [promoteStates, hps]
      · intro x hx
        rcases List.mem_cons.mp hx with rfl | hx'
        · rfl
        · exact h2 x hx'
      · simp [IbState.res?, h3]

theorem runningTriples_ok (s : List (IbState σ ρ)) (hrun : ∀ x ∈ s, x.isRunning = true) :
    ∃ st, runningTriples s = Except.ok st ∧ st.length = s.length ∧
      s.map IbState.res? = st.map fun tr => some tr.2.1 := by
  induction s with
  | nil => exact ⟨[], rfl, rfl, rfl⟩
  | cons a t ih =>
    obtain ⟨i0, r, q, rfl⟩ : ∃ i0 r q, a = IbState.running i0 r q := by
      cases a with
      | running i r q => exact ⟨i, r, q, rfl⟩
      | init i =>
        have := hrun (IbState.init i) (by simp)
        simp [IbState.isRunning] at this
    obtain ⟨st, hst, h1, h2⟩ := ih fun x hx => hrun x (List.mem_cons_of_mem _ hx)
    exact ⟨(i0, r, q) :: st, by simp only [runningTriples, hst], by simp [h1],
      by simp [IbState.res?, h2]⟩

theorem zip_zip_map_third (f : γ → δ) :
    ∀ (a : List α) (b : List β) (c : List γ), a.length = c.length → b.length = c.length →
      ((a.zip (b.zip c)).map fun p => f p.2.2) = c.map f := by
  intro a
  induction a with
  | nil =>
    intro b c h1 _
    cases c with
    | nil => simp
    | cons y ys => simp at h1
  | cons x xs ih =>
    intro b c h1 h2
    cases c with
    | nil => simp at h1
    | cons y ys =>
      cases b with
      | nil => simp at h2
      | cons z zs =>
        simp only [List.zip_cons_cons, List.map_cons]
        rw [ih zs ys (by simpa using h1) (by simpa using h2)]

/-- C3: on a first step (all incoming states in the initial phase), the
interfacer block fails with the contract-violation error whenever the
batch size differs from the configured resource count, and on a
matching batch size it succeeds with every output state already in the
running phase (the initial-to-running transition happens on that very
step). -/
theorem interfacerBlock_first_step_contract (ib : InterfacerBlock σ ρ)
    (s : List (IbState σ ρ)) (ins : List (List ℝ)) (hne : s ≠ [])
    (hinit : ∀ x ∈ s, x.isInit = true) :
    (s.length ≠ ib.resources.length →
      ibApplyBlock ib s ins = Except.error "first batch size must match resource count") ∧
    (s.length = ib.resources.length →
      ∃ out, ibApplyBlock ib s ins = Except.ok out ∧
        ∀ x ∈ out.1, x.isRunning = true) := by
  obtain ⟨a, t, rfl⟩ : ∃ a t, s = a :: t := by
    cases s with
    | nil => exact absurd rfl hne
    | cons a t => exact ⟨a, t, rfl⟩
  obtain ⟨i0, rfl⟩ : ∃ i0, a = IbState.init i0 := by
    cases a with
    | init i0 => exact ⟨i0, rfl⟩
    | running i r q =>
      have := hinit (IbState.running i r q) (by simp)
      simp [IbState.isInit] at this
  constructor
  · intro hlen
    simp only [ibApplyBlock]
    rw [if_neg hlen]
  · intro hlen
    obtain ⟨ps, hps, _, hpr, _⟩ :=
      promoteStates_ok ib.resInSize (IbState.init i0 :: t) ib.resources hinit hlen
    obtain ⟨st, hst, _, _⟩ := runningTriples_ok ps hpr
    simp only [ibApplyBlock]
    rw [if_pos hlen]
    simp only [hps, hst]
    refine ⟨_, rfl, ?_⟩
    intro x hx
    simp only [List.mem_map] at hx
    obtain ⟨p, _, rfl⟩ := hx
    rfl

/-- Witness for C3: a two-lane initial batch against two configured
resources succeeds; the same theorem also covers the mismatch branch. -/
theorem interfacerBlock_first_step_contract_witness :
    ([IbState.init 0, IbState.init 0] ≠ ([] : List (IbState Nat Nat))) ∧
    (([IbState.init 0, IbState.init 0] : List (IbState Nat Nat)).length ≠
        witIB.resources.length →
      ibApplyBlock witIB [IbState.init 0, IbState.init 0] [[(1 : ℝ)], [1]] =
        Except.error "first batch size must match resource count") ∧
    (([IbState.init 0, IbState.init 0] : List (IbState Nat Nat)).length =
        witIB.resources.length →
      ∃ out, ibApplyBlock witIB [IbState.init 0, IbState.init 0] [[(1 : ℝ)], [1]] =
          Except.ok out ∧ ∀ x ∈ out.1, x.isRunning = true) :=
  ⟨by simp,
    interfacerBlock_first_step_contract witIB [IbState.init 0, IbState.init 0]
      [[(1 : ℝ)], [1]] (by simp) (by simp [IbState.isInit])⟩

/-- C10: after the initial-to-running transition (all incoming states in
the running phase), a step of the interfacer block succeeds (given an
inner block honoring the one-state-and-output-per-lane contract) and
every output state carries exactly the same bound resource as the
corresponding input state. -/
theorem interfacerBlock_preserves_resources (ib : InterfacerBlock σ ρ)
    (hwf : ∀ st is, ((ib.block.apply st is).1.length = st.length) ∧
      ((ib.block.apply st is).2.length = st.length))
    (s : List (IbState σ ρ)) (ins : List (List ℝ)) (hne : s ≠ [])
    (hrun : ∀ x ∈ s, x.isRunning = true) :
    ∃ out, ibApplyBlock ib s ins = Except.ok out ∧
      out.1.map IbState.res? = s.map IbState.res? := by
  obtain ⟨a, t, rfl⟩ : ∃ a t, s = a :: t := by
    cases s with
    | nil => exact absurd rfl hne
    | cons a t => exact ⟨a, t, rfl⟩
  obtain ⟨i0, r0, q0, rfl⟩ : ∃ i0 r0 q0, a = IbState.running i0 r0 q0 := by
    cases a with
    | running i r q => exact ⟨i, r, q, rfl⟩
    | init i =>
      have := hrun (IbState.init i) (by simp)
      simp [IbState.isRunning] at this
  obtain ⟨st, hst, hstl, hres⟩ := runningTriples_ok _ hrun
  simp only [ibApplyBlock]
  simp only [hst]
  refine ⟨_, rfl, ?_⟩
  rw [List.map_map]
  have hcomp : (IbState.res? ∘ fun p : List ℝ × (σ × (σ × ρ × List ℝ)) =>
      IbState.running p.2.1 p.2.2.2.1 (p.1.take ib.resInSize)) =
      fun p : List ℝ × (σ × (σ × ρ × List ℝ)) => some p.2.2.2.1 := by
    funext p
    rfl
  rw [hcomp]
  have hw := hwf (st.map fun tr => tr.1)
    ((st.zip ins).map fun p => ib.applyRes p.1.2.1 p.1.2.2 ++ p.2)
  rw [List.length_map] at hw
  rw [zip_zip_map_third (fun tr : σ × ρ × List ℝ => some tr.2.1) _ _ st hw.2 hw.1]
  exact hres.symm

/-- Witness for C10 on a one-lane running state. -/
theorem interfacerBlock_preserves_resources_witness :
    ([IbState.running 0 7 [(0 : ℝ)]] ≠ ([] : List (IbState Nat Nat))) ∧
    ∃ out, ibApplyBlock witIB [IbState.running 0 7 [(0 : ℝ)]] [[(1 : ℝ)]] =
        Except.ok out ∧
      out.1.map IbState.res? =
        ([IbState.running 0 7 [(0 : ℝ)]] : List (IbState Nat Nat)).map IbState.res? :=
  ⟨by simp,
    interfacerBlock_preserves_resources witIB
      (fun st _ => ⟨rfl, by simp [witIB, witBlock]⟩)
      [IbState.running 0 7 [(0 : ℝ)]] [[(1 : ℝ)]] (by simp)
      (by simp [IbState.isRunning])⟩

/-! ### Gradient accumulator cleanup -/

theorem readAndClear_preserves_none [DecidableEq V] (vs : List V) :
    ∀ (g : Grad V) (ds : List (Option sg)) (w : V), g w = none →
      (readAndClear g vs ds).1 w = none := by
  induction vs with
  | nil =>
    intro g ds w hw
    exact hw
  | cons v vs ih =>
    intro g ds w hw
    simp only [readAndClear]
    apply ih
    unfold gradDel
    split <;> simp [hw]

theorem readAndClear_clears [DecidableEq V] (vs : List V) :
    ∀ (g : Grad V) (ds : List (Option sg)) (v : V), v ∈ vs →
      (readAndClear g vs ds).1 v = none := by
  induction vs with
  | nil =>
    intro g ds v hv
    cases hv
  | cons a t ih =>
    intro g ds v hv
    simp only [readAndClear]
    rcases List.mem_cons.mp hv with rfl | hv'
    · apply readAndClear_preserves_none
      unfold gradDel
      simp
    · exact ih _ _ v hv'

theorem readAndClear_reads [DecidableEq V] (vs : List V) :
    ∀ (g : Grad V) (ds : List (Option sg)), vs.Nodup →
      (readAndClear g vs ds).2.map (fun r => r.upstreamQuery) =
        vs.map fun v => (g v).getD [] := by
  induction vs with
  | nil =>
    intro g ds _
    rfl
  | cons a t ih =>
    intro g ds hnd
    simp only [readAndClear, List.map_cons]
    have hna : a ∉ t := (List.nodup_cons.mp hnd).1
    rw [ih _ _ (List.nodup_cons.mp hnd).2]
    congr 1
    apply List.map_congr_left
    intro w hw
    have hwa : ¬ w = a := fun h => hna (h ▸ hw)
    unfold gradDel
    rw [if_neg hwa]

/-- C5: the backward pass of the interfacer block's per-step result
reads the accumulator entries keyed by the pooled per-step query
variables into the returned state gradients' upstream-query fields and
then deletes them: when it returns, the accumulator holds no entry for
any pooled query variable, and the returned upstream-query fields are
exactly the entries that the wrapped result's backward pass had
accumulated for those variables. -/
theorem ibPropagateGradient_clears_query_pool [DecidableEq V] (vsize : V → Nat)
    (reqSize : Nat) (queryPool : List V) (outVecs : List (List ℝ))
    (innerProp : List (List ℝ) → List (Option sg) → Grad V → Grad V × List (Option sg))
    (u : Option (List (List ℝ))) (s0 : Option (List (Option (IbStateGrad sg))))
    (g : Grad V) (hnd : queryPool.Nodup)
    (hlen : ∀ a b c, ((innerProp a b c).2).length = queryPool.length) :
    (∀ v ∈ queryPool,
      (ibPropagateGradient vsize reqSize queryPool outVecs innerProp u s0 g).1 v = none) ∧
    (ibPropagateGradient vsize reqSize queryPool outVecs innerProp u s0 g).2.map
        (fun r => r.upstreamQuery) =
      queryPool.map fun v =>
        ((innerProp (ibInnerUp reqSize outVecs u (s0.getD (List.replicate outVecs.length none)))
            (ibInnerStateUp (s0.getD (List.replicate outVecs.length none)))
            (seedPool vsize queryPool g)).1 v).getD [] := by
  have _ := hlen
  unfold ibPropagateGradient
  exact ⟨fun v hv => readAndClear_clears queryPool _ _ v hv,
    readAndClear_reads queryPool _ _ hnd⟩

/-- Witness for C5 with a two-variable pool and a concrete inner
backward operation. -/
theorem ibPropagateGradient_clears_query_pool_witness :
    ([0, 1] : List Nat).Nodup ∧
    ((∀ v ∈ ([0, 1] : List Nat),
      (ibPropagateGradient (fun _ => 2) 2 [0, 1] [[(5 : ℝ)], [6]] witInnerProp
        none none witGrad).1 v = none) ∧
    (ibPropagateGradient (fun _ => 2) 2 [0, 1] [[(5 : ℝ)], [6]] witInnerProp
        none none witGrad).2.map (fun r => r.upstreamQuery) =
      ([0, 1] : List Nat).map fun v =>
        ((witInnerProp
            (ibInnerUp 2 [[(5 : ℝ)], [6]] none
              ((none : Option (List (Option (IbStateGrad Unit)))).getD
                (List.replicate ([[(5 : ℝ)], [6]] : List (List ℝ)).length none)))
            (ibInnerStateUp
              ((none : Option (List (Option (IbStateGrad Unit)))).getD
                (List.replicate ([[(5 : ℝ)], [6]] : List (List ℝ)).length none)))
            (seedPool (fun _ => 2) [0, 1] witGrad)).1 v).getD []) :=
  ⟨by decide,
    ibPropagateGradient_clears_query_pool (fun _ => 2) 2 [0, 1] [[(5 : ℝ)], [6]]
      witInnerProp none none witGrad (by decide) (fun _ _ _ => rfl)⟩

end Attention
